import Mathlib

/-!
Verification of the zignal multi-client broadcast chat service.

The server (src/src/server/server.c) keeps a fixed array of ten client socket
slots (`int client_sockets[MAX_CLIENTS] = {0}`), guarded by one mutex.  Slot
value `0` marks an empty slot.  `add_client` stores a socket in the first empty
slot, `remove_client` zeroes the first slot holding the socket, and
`broadcast_message` sends a message to every nonzero slot other than the
sender, all while the mutex is held.  `handle_client` reads bytes into a
zeroed 1024-byte buffer, tags them with `"[Client <id>]: "` via snprintf, and
broadcasts.  The client (src/src/client/client.c) strips its input line at the
first newline and either stops on the literal "exit" or sends the line.

The definitions below embed those functions over `List Int` (the slot array)
and `List Char` (C byte buffers).
-/

namespace Zignal

/-- Connection handles are C `int` socket descriptors. -/
abbrev Handle := Int

/-- `MAX_CLIENTS` in server.c. -/
def maxClients : Nat := 10

/-- `BUFFER_SIZE` in server.c and client.c. -/
def bufferSize : Nat := 1024

/-- The initial registry state: `int client_sockets[MAX_CLIENTS] = {0}`. -/
def initState : List Handle := List.replicate maxClients 0

/-- `add_client` in server.c: scan the slots in order, store the new socket in
the first slot equal to `0`, then stop.  If no slot is `0`, nothing happens. -/
def addClient : List Handle → Handle → List Handle
  | [], _ => []
  | s :: rest, h => if s = 0 then h :: rest else s :: addClient rest h

/-- `remove_client` in server.c: scan the slots in order, zero the first slot
equal to the socket, then stop.  If no slot matches, nothing happens. -/
def removeClient : List Handle → Handle → List Handle
  | [], _ => []
  | s :: rest, h => if s = h then 0 :: rest else s :: removeClient rest h

/-- The slots `broadcast_message` writes to, in scan order: every slot that is
nonzero and differs from the sender.  This is the registry "snapshot excluding
the sender" of the spec. -/
def snapshot (st : List Handle) (sender : Handle) : List Handle :=
  st.filter (fun s => decide (s ≠ 0 ∧ s ≠ sender))

/-- The nonzero slots of a registry state: the current members. -/
def activeHandles (st : List Handle) : List Handle :=
  st.filter (fun s => decide (s ≠ 0))

/-- `broadcast_message` in server.c, as the list of (recipient, bytes)
deliveries it performs, in order. -/
def broadcastMessage (st : List Handle) (sender : Handle) (msg : List Char)
    : List (Handle × List Char) :=
  (snapshot st sender).map (fun h => (h, msg))

/-! ### Operation sequences on the registry -/

/-- A registry operation: `add_client` or `remove_client`. -/
inductive Op where
  | add : Handle → Op
  | remove : Handle → Op
deriving DecidableEq

/-- Apply one operation to a registry state. -/
def applyOp (st : List Handle) : Op → List Handle
  | Op.add h => addClient st h
  | Op.remove h => removeClient st h

/-- Apply a sequence of operations, left to right. -/
def applyOps : List Op → List Handle → List Handle
  | [], st => st
  | op :: rest, st => applyOps rest (applyOp st op)

/-- Run a sequence of operations from the initial all-zero state. -/
def runOps (ops : List Op) : List Handle := applyOps ops initState

/-- Modelled from the spec: the set of handles "added and not subsequently
removed", accumulated left to right from `S`.  Add inserts (no-op when already
present), Remove erases every occurrence.  This is the spec-side model to
compare the source registry against. -/
def specActive : List Op → List Handle → List Handle
  | [], S => S
  | Op.add h :: rest, S => specActive rest (S.insert h)
  | Op.remove h :: rest, S => specActive rest (S.filter (fun x => decide (x ≠ h)))

/-- The spec-side active set of a sequence, starting from the empty set. -/
def specActiveOf (ops : List Op) : List Handle := specActive ops []

/-- Well-formed operation sequences relative to a state: every Add presents a
nonzero handle that is not currently a member while a free slot exists.
Remove is unrestricted. -/
def wfOps : List Op → List Handle → Bool
  | [], _ => true
  | Op.add h :: rest, st =>
      decide (h ≠ 0) && decide (h ∉ activeHandles st) && decide ((0 : Int) ∈ st)
        && wfOps rest (addClient st h)
  | Op.remove h :: rest, st => wfOps rest (removeClient st h)

/-! ### Message formatting (server side) -/

/-- The C string stored in a buffer: the bytes up to the first NUL. -/
def cStringOf (buf : List Char) : List Char :=
  buf.takeWhile (fun c => decide (c ≠ Char.ofNat 0))

/-- The C string `handle_client` obtains after `memset(buffer, 0, BUFFER_SIZE)`
followed by `read` placing `payload` at the start of the buffer. -/
def readBuffer (payload : List Char) : List Char :=
  cStringOf (payload ++ List.replicate (bufferSize - payload.length) (Char.ofNat 0))

/-- The tagged message built by `snprintf(..., "[Client %d]: %s", id, buffer)`
in `handle_client` (the id is `rand()`, hence nonnegative, printed in
decimal). -/
def tagMessage (id : Nat) (payload : List Char) : List Char :=
  "[Client ".data ++ Nat.toDigits 10 id ++ "]: ".data ++ payload

/-- One server relay step: read `payload` into the zeroed buffer, tag it with
the sender id, broadcast to everyone but the sender.  Returns the deliveries
performed. -/
def serverRelay (id : Nat) (st : List Handle) (sender : Handle)
    (payload : List Char) : List (Handle × List Char) :=
  broadcastMessage st sender (tagMessage id (readBuffer payload))

/-! ### Broadcast event traces (lock ordering) -/

/-- The observable events of one `broadcast_message` call. -/
inductive BEvent where
  | lockAcquire : BEvent
  | sendTo : Handle → List Char → BEvent
  | lockRelease : BEvent
deriving DecidableEq

/-- The event trace of `broadcast_message` in server.c:
`pthread_mutex_lock`, then one `send` per nonzero non-sender slot in scan
order, then `pthread_mutex_unlock`. -/
def broadcastTrace (st : List Handle) (sender : Handle) (msg : List Char)
    : List BEvent :=
  (BEvent.lockAcquire :: (snapshot st sender).map (fun h => BEvent.sendTo h msg))
    ++ [BEvent.lockRelease]

/-- Number of locks held just before position `i` of a trace: acquires minus
releases among the first `i` events. -/
def lockDepthAt (tr : List BEvent) (i : Nat) : Int :=
  ((tr.take i).count BEvent.lockAcquire : Int)
    - ((tr.take i).count BEvent.lockRelease : Int)

/-! ### Session identity (server side) -/

/-- Models the C library `rand()` value observed right after `srand(seed)`;
the constants follow the C standard's reference generator.  Only its
determinism in the seed matters for the claims below. -/
def randOfSeed (seed : Nat) : Nat :=
  (seed * 1103515245 + 12345) / 65536 % 32768

/-- The data a server session starts from: the wall-clock tick `time(NULL)`
returned when `handle_client` seeds the generator, plus the accepted socket
(irrelevant to the identity). -/
structure SessionStart where
  startTick : Nat
  sock : Handle
deriving DecidableEq

/-- `handle_client` identity assignment: `srand(time(NULL)); rand()`. -/
def sessionIdentity (s : SessionStart) : Nat := randOfSeed s.startTick

/-! ### Client send loop -/

/-- `buffer[strcspn(buffer, "\n")] = '\0'` in `start_client`: the line is cut
at its first newline. -/
def stripNewline (line : List Char) : List Char :=
  line.takeWhile (fun c => decide (c ≠ '\n'))

/-- The action taken on one iteration of the client's send loop. -/
inductive ClientStep where
  | closeAndStop : ClientStep
  | sendLine : List Char → ClientStep
deriving DecidableEq

/-- One iteration of the send loop in `start_client`: strip the line at its
first newline; if the result is the literal "exit", close the socket and stop,
otherwise send the stripped line. -/
def clientStep (line : List Char) : ClientStep :=
  if stripNewline line = "exit".data then ClientStep.closeAndStop
  else ClientStep.sendLine (stripNewline line)

/-- The whole send loop over a list of input lines: the messages sent, and
whether the loop terminated via "exit". -/
def sendLoop : List (List Char) → List (List Char) × Bool
  | [] => ([], false)
  | line :: rest =>
    match clientStep line with
    | ClientStep.closeAndStop => ([], true)
    | ClientStep.sendLine m =>
        ((m :: (sendLoop rest).1), (sendLoop rest).2)

/-! ## Helper lemmas -/

theorem mem_activeHandles {st : List Handle} {x : Handle} :
    x ∈ activeHandles st ↔ x ∈ st ∧ x ≠ 0 := by
  simp [activeHandles, List.mem_filter]

theorem mem_snapshot {st : List Handle} {sender x : Handle} :
    x ∈ snapshot st sender ↔ x ∈ st ∧ x ≠ 0 ∧ x ≠ sender := by
  simp [snapshot, List.mem_filter]

theorem snapshot_eq_filter (st : List Handle) (sender : Handle) :
    snapshot st sender = (activeHandles st).filter (fun s => decide (s ≠ sender)) := by
  induction st with
  | nil => rfl
  | cons a rest ih =>
    by_cases ha : a = 0
    · subst ha
      simp [snapshot, activeHandles, List.filter_cons] at ih ⊢
      simpa [snapshot, activeHandles] using ih
    · by_cases hs : a = sender
      · subst hs
        simp [snapshot, activeHandles, List.filter_cons, ha] at ih ⊢
        simpa [snapshot, activeHandles] using ih
      · simp [snapshot, activeHandles, List.filter_cons, ha, hs] at ih ⊢
        simpa [snapshot, activeHandles] using ih

theorem addClient_zero (st : List Handle) : addClient st 0 = st := by
  induction st with
  | nil => rfl
  | cons a rest ih =>
    by_cases ha : a = 0
    · subst ha; simp [addClient]
    · simp [addClient, ha, ih]

theorem removeClient_zero (st : List Handle) : removeClient st 0 = st := by
  induction st with
  | nil => rfl
  | cons a rest ih =>
    by_cases ha : a = 0
    · subst ha; simp [removeClient]
    · simp [removeClient, ha, ih]

theorem addClient_of_full {st : List Handle} (h : Handle)
    (hfull : ∀ x ∈ st, x ≠ 0) : addClient st h = st := by
  induction st with
  | nil => rfl
  | cons a rest ih =>
    have ha : a ≠ 0 := hfull a (List.mem_cons_self a rest)
    simp [addClient, ha]
    exact ih (fun x hx => hfull x (List.mem_cons_of_mem a hx))

theorem removeClient_of_not_mem {st : List Handle} {h : Handle}
    (hnm : h ∉ st) : removeClient st h = st := by
  induction st with
  | nil => rfl
  | cons a rest ih =>
    have ha : ¬ (a = h) := by
      intro e; subst e; exact hnm (List.mem_cons_self a rest)
    simp only [removeClient, if_neg ha]
    rw [ih (fun hx => hnm (List.mem_cons_of_mem a hx))]

theorem not_mem_removeClient {st : List Handle} {h : Handle} (h0 : h ≠ 0)
    (hc : st.count h ≤ 1) : h ∉ removeClient st h := by
  induction st with
  | nil => simp [removeClient]
  | cons a rest ih =>
    by_cases ha : a = h
    · subst ha
      have hrest : rest.count a = 0 := by
        have := List.count_cons_self a rest
        omega
      have hnm : a ∉ rest := by
        rwa [List.count_eq_zero] at hrest
      simp [removeClient, List.mem_cons]
      exact ⟨fun e => h0 e, hnm⟩
    · have hc' : rest.count h ≤ 1 := by
        have := List.count_cons h a rest
        simp [fun e : h = a => ha e.symm] at this
        omega
      simp [removeClient, ha, List.mem_cons]
      exact ⟨fun e => ha e.symm, ih hc'⟩

theorem activeHandles_cons_ne {a : Handle} (ha : a ≠ 0) (l : List Handle) :
    activeHandles (a :: l) = a :: activeHandles l := by
  simp [activeHandles, List.filter_cons, ha]

theorem activeHandles_cons_zero (l : List Handle) :
    activeHandles ((0 : Int) :: l) = activeHandles l := by
  simp [activeHandles, List.filter_cons]

theorem activeMS_addClient {st : List Handle} {h : Handle} (h0 : h ≠ 0)
    (hz : (0 : Int) ∈ st) :
    (activeHandles (addClient st h) : Multiset Handle)
      = h ::ₘ (activeHandles st : Multiset Handle) := by
  induction st with
  | nil => cases hz
  | cons a rest ih =>
    by_cases ha : a = 0
    · subst ha
      have hstep : addClient ((0 : Int) :: rest) h = h :: rest := by
        simp [addClient]
      rw [hstep, activeHandles_cons_ne h0, activeHandles_cons_zero,
        ← Multiset.cons_coe]
    · have hz' : (0 : Int) ∈ rest := by
        rcases List.mem_cons.mp hz with e | e
        · exact absurd e.symm ha
        · exact e
      simp only [addClient, if_neg ha]
      rw [activeHandles_cons_ne ha, activeHandles_cons_ne ha,
        ← Multiset.cons_coe, ← Multiset.cons_coe, ih hz', Multiset.cons_swap]

theorem activeMS_removeClient {st : List Handle} {h : Handle} (h0 : h ≠ 0) :
    (activeHandles (removeClient st h) : Multiset Handle)
      = (activeHandles st : Multiset Handle).erase h := by
  induction st with
  | nil => simp [removeClient, activeHandles]
  | cons a rest ih =>
    by_cases ha : a = h
    · subst ha
      have hstep : removeClient (a :: rest) a = (0 : Int) :: rest := by
        simp [removeClient]
      rw [hstep, activeHandles_cons_zero, activeHandles_cons_ne h0,
        ← Multiset.cons_coe, Multiset.erase_cons_head]
    · simp only [removeClient, if_neg ha]
      by_cases haz : a = 0
      · subst haz
        rw [activeHandles_cons_zero, activeHandles_cons_zero, ih]
      · rw [activeHandles_cons_ne haz, activeHandles_cons_ne haz,
          ← Multiset.cons_coe, ← Multiset.cons_coe,
          Multiset.erase_cons_tail _ ha, ih]

/-- The core refinement invariant: along any well-formed operation sequence,
the nonzero slots of the source registry stay duplicate-free and coincide, as
a set, with the spec-side "added and not subsequently removed" model. -/
theorem registry_inv (ops : List Op) : ∀ (st S : List Handle),
    wfOps ops st = true →
    (activeHandles st).Nodup →
    (∀ x, x ∈ activeHandles st ↔ x ∈ S) →
    ((0 : Int) ∉ S) →
    (activeHandles (applyOps ops st)).Nodup ∧
      (∀ x, x ∈ activeHandles (applyOps ops st) ↔ x ∈ specActive ops S) ∧
      ((0 : Int) ∉ specActive ops S) := by
  induction ops with
  | nil => exact fun st S _ hnd hiff hS => ⟨hnd, hiff, hS⟩
  | cons op rest ih =>
    intro st S hwf hnd hiff hS
    cases op with
    | add h =>
      simp only [wfOps, Bool.and_eq_true, decide_eq_true_eq] at hwf
      obtain ⟨⟨⟨h0, hnm⟩, hz⟩, hwf'⟩ := hwf
      have hms := @activeMS_addClient st _ h0 hz
      have hnm' : h ∉ (activeHandles st : Multiset Handle) := by
        simpa using hnm
      have hnd' : (activeHandles (addClient st h)).Nodup := by
        have : ((activeHandles (addClient st h) : Multiset Handle)).Nodup := by
          rw [hms]
          exact Multiset.nodup_cons.mpr ⟨hnm', by simpa using hnd⟩
        simpa using this
      have hiff' : ∀ x, x ∈ activeHandles (addClient st h) ↔ x ∈ S.insert h := by
        intro x
        have hx : x ∈ activeHandles (addClient st h)
            ↔ x ∈ (activeHandles (addClient st h) : Multiset Handle) := by
          simp
        rw [hx, hms, Multiset.mem_cons, List.mem_insert_iff]
        simp [hiff x]
      have hS' : (0 : Int) ∉ S.insert h := by
        rw [List.mem_insert_iff]
        rintro (e | e)
        · exact h0 e.symm
        · exact hS e
      simpa [applyOps, applyOp, specActive] using ih (addClient st h) (S.insert h) hwf' hnd' hiff' hS'
    | remove h =>
      simp only [wfOps] at hwf
      by_cases h0 : h = 0
      · subst h0
        have hstEq : removeClient st 0 = st := removeClient_zero st
        have hfilter : ∀ x, x ∈ activeHandles st
            ↔ x ∈ S.filter (fun x => decide (x ≠ 0)) := by
          intro x
          rw [List.mem_filter]
          constructor
          · intro hx
            refine ⟨(hiff x).mp hx, ?_⟩
            simp [(mem_activeHandles.mp hx).2]
          · intro ⟨hxS, _⟩
            exact (hiff x).mpr hxS
        have hS' : (0 : Int) ∉ S.filter (fun x => decide (x ≠ 0)) := by
          intro hmem
          exact hS (List.mem_of_mem_filter hmem)
        have := ih (removeClient st 0) (S.filter (fun x => decide (x ≠ 0)))
          hwf (by rwa [hstEq]) (by rw [hstEq]; exact hfilter) hS'
        simpa [applyOps, applyOp, specActive] using this
      · have hms := @activeMS_removeClient st _ h0
        have hmsNodup : ((activeHandles st : Multiset Handle)).Nodup := by
          simpa using hnd
        have hnd' : (activeHandles (removeClient st h)).Nodup := by
          have : ((activeHandles (removeClient st h) : Multiset Handle)).Nodup := by
            rw [hms]
            exact hmsNodup.erase h
          simpa using this
        have hiff' : ∀ x, x ∈ activeHandles (removeClient st h)
            ↔ x ∈ S.filter (fun x => decide (x ≠ h)) := by
          intro x
          have hx : x ∈ activeHandles (removeClient st h)
              ↔ x ∈ (activeHandles (removeClient st h) : Multiset Handle) := by
            simp
          rw [hx, hms, hmsNodup.mem_erase_iff, List.mem_filter]
          simp only [decide_eq_true_eq]
          constructor
          · intro ⟨hxh, hxm⟩
            exact ⟨(hiff x).mp (by simpa using hxm), hxh⟩
          · intro ⟨hxS, hxh⟩
            exact ⟨hxh, by simpa using (hiff x).mpr hxS⟩
        have hS' : (0 : Int) ∉ S.filter (fun x => decide (x ≠ h)) := by
          intro hmem
          exact hS (List.mem_of_mem_filter hmem)
        have := ih (removeClient st h) (S.filter (fun x => decide (x ≠ h)))
          hwf hnd' hiff' hS'
        simpa [applyOps, applyOp, specActive] using this

theorem count_activeHandles {st : List Handle} {x : Handle} (hx : x ≠ 0) :
    (activeHandles st).count x = st.count x := by
  induction st with
  | nil => rfl
  | cons a rest ih =>
    by_cases ha : a = 0
    · subst ha
      rw [activeHandles_cons_zero, ih]
      have : ¬ (x = 0) := hx
      simp [List.count_cons, this]
    · rw [activeHandles_cons_ne ha]
      simp [List.count_cons, ih]

/-! ## Claims -/

/-- C4: for every registry state with all slots occupied (no slot equal to
`0`), `add_client` is a silent no-op: it signals nothing (its return type is
void, so the model returns only the state) and leaves every slot unchanged. -/
theorem c4_add_full_noop (st : List Handle) (h : Handle)
    (hfull : ∀ x ∈ st, x ≠ 0) : addClient st h = st :=
  addClient_of_full h hfull

theorem c4_add_full_noop_witness :
    (∀ x ∈ ([1, 2, 3, 4, 5, 6, 7, 8, 9, 10] : List Handle), x ≠ 0) ∧
      addClient [1, 2, 3, 4, 5, 6, 7, 8, 9, 10] 11
        = [1, 2, 3, 4, 5, 6, 7, 8, 9, 10] :=
  ⟨by decide, c4_add_full_noop [1, 2, 3, 4, 5, 6, 7, 8, 9, 10] 11 (by decide)⟩

/-- C10: handle value `0` is the reserved empty-slot marker: a broadcast
snapshot never contains `0` (for any state, hence for any Add/Remove
sequence), `add_client(0)` leaves the registry state unchanged, and `0` is
never a registry member. -/
theorem c10_zero_reserved :
    (∀ (ops : List Op) (x : Handle), (0 : Int) ∉ snapshot (runOps ops) x) ∧
      (∀ (st : List Handle) (x : Handle), (0 : Int) ∉ snapshot st x) ∧
      (∀ st : List Handle, addClient st 0 = st) ∧
      (∀ st : List Handle, (0 : Int) ∉ activeHandles st) := by
  refine ⟨fun ops x hmem => ?_, fun st x hmem => ?_, addClient_zero,
    fun st hmem => ?_⟩
  · exact (mem_snapshot.mp hmem).2.1 rfl
  · exact (mem_snapshot.mp hmem).2.1 rfl
  · exact (mem_activeHandles.mp hmem).2 rfl

/-- C1 as stated is false: `add_client` silently drops an Add once all ten
slots are full, so after adding eleven distinct handles the handle `11` has
been added and never removed, yet no snapshot contains it. -/
theorem c1_counterexample :
    (11 : Int) ∈ specActiveOf
        [Op.add 1, Op.add 2, Op.add 3, Op.add 4, Op.add 5, Op.add 6,
          Op.add 7, Op.add 8, Op.add 9, Op.add 10, Op.add 11] ∧
      (11 : Int) ∉ snapshot
        (runOps [Op.add 1, Op.add 2, Op.add 3, Op.add 4, Op.add 5, Op.add 6,
          Op.add 7, Op.add 8, Op.add 9, Op.add 10, Op.add 11]) 12 := by
  decide

/-- C1, amended: `Snapshot(excluding h)` never contains `h`, and for every
well-formed sequence of Add/Remove operations (each Add presents a nonzero
handle that is not currently a member while a free slot exists), the snapshot
has no duplicate entries and contains exactly the handles added and not
subsequently removed, other than `h`. -/
theorem c1_snapshot_exact (ops : List Op) (h : Handle)
    (hwf : wfOps ops initState = true) :
    h ∉ snapshot (runOps ops) h ∧
      (snapshot (runOps ops) h).Nodup ∧
      (∀ x, x ∈ snapshot (runOps ops) h ↔ x ∈ specActiveOf ops ∧ x ≠ h) := by
  have hinit : activeHandles initState = [] := by decide
  obtain ⟨hnd, hiff, _⟩ := registry_inv ops initState [] hwf
    (by rw [hinit]; exact List.nodup_nil)
    (by intro x; rw [hinit]) (by simp)
  refine ⟨fun hmem => (mem_snapshot.mp hmem).2.2 rfl, ?_, ?_⟩
  · rw [snapshot_eq_filter]
    exact hnd.filter _
  · intro x
    rw [mem_snapshot]
    constructor
    · intro ⟨hxm, hx0, hxh⟩
      exact ⟨(hiff x).mp (mem_activeHandles.mpr ⟨hxm, hx0⟩), hxh⟩
    · intro ⟨hxS, hxh⟩
      have := mem_activeHandles.mp ((hiff x).mpr hxS)
      exact ⟨this.1, this.2, hxh⟩

theorem c1_snapshot_exact_witness :
    wfOps [Op.add 5, Op.add 7, Op.remove 5] initState = true ∧
      (7 : Int) ∉ snapshot (runOps [Op.add 5, Op.add 7, Op.remove 5]) 7 :=
  ⟨by decide,
    (c1_snapshot_exact [Op.add 5, Op.add 7, Op.remove 5] 7 (by decide)).1⟩

/-- C5 as stated is false: `add_client` never checks whether the socket is
already stored, so adding the same handle twice occupies two slots and
changes the state. -/
theorem c5_counterexample :
    (runOps [Op.add 5, Op.add 5]).count 5 = 2 ∧
      addClient (addClient initState 5) 5 ≠ addClient initState 5 := by
  decide

/-- C5, amended: along every well-formed sequence (each Add presents a
nonzero handle that is not currently a member while a free slot exists), each
nonzero handle occupies at most one slot; but `add_client` itself performs no
presence check, so an Add of an already-present handle inserts a second
occurrence rather than leaving the registry unchanged. -/
theorem c5_at_most_once (ops : List Op) (x : Handle)
    (hwf : wfOps ops initState = true) (hx : x ≠ 0) :
    (runOps ops).count x ≤ 1 := by
  have hinit : activeHandles initState = [] := by decide
  obtain ⟨hnd, _, _⟩ := registry_inv ops initState [] hwf
    (by rw [hinit]; exact List.nodup_nil)
    (by intro x; rw [hinit]) (by simp)
  have := List.nodup_iff_count_le_one.mp hnd x
  rwa [count_activeHandles hx] at this

theorem c5_at_most_once_witness :
    wfOps [Op.add 5, Op.add 7] initState = true ∧ (5 : Int) ≠ 0 ∧
      (runOps [Op.add 5, Op.add 7]).count 5 ≤ 1 :=
  ⟨by decide, by decide, c5_at_most_once [Op.add 5, Op.add 7] 5 (by decide) (by decide)⟩

/-- C6 as stated is false: on the reachable state obtained by adding handle
`5` twice (slots `[5, 5, 0, …]`), the first Remove zeroes only the first
occurrence, so a second Remove changes the state again. -/
theorem c6_counterexample :
    removeClient (removeClient (runOps [Op.add 5, Op.add 5]) 5) 5
      ≠ removeClient (runOps [Op.add 5, Op.add 5]) 5 := by
  decide

/-- C6, amended: `remove_client(h)` is a no-op when `h` is not present, and on
every state in which `h` occupies at most one slot (all states reachable
without adding a handle twice), Remove twice equals Remove once.  On a state
holding `h` in two slots the second Remove clears the second copy. -/
theorem c6_remove_idempotent (st : List Handle) (h : Handle)
    (hc : st.count h ≤ 1) :
    (h ∉ st → removeClient st h = st) ∧
      removeClient (removeClient st h) h = removeClient st h := by
  refine ⟨fun hnm => removeClient_of_not_mem hnm, ?_⟩
  by_cases h0 : h = 0
  · subst h0; rw [removeClient_zero, removeClient_zero]
  · exact removeClient_of_not_mem (not_mem_removeClient h0 hc)

theorem c6_remove_idempotent_witness :
    (runOps [Op.add 5]).count 5 ≤ 1 ∧
      removeClient (removeClient (runOps [Op.add 5]) 5) 5
        = removeClient (runOps [Op.add 5]) 5 :=
  ⟨by decide, (c6_remove_idempotent (runOps [Op.add 5]) 5 (by decide)).2⟩

theorem takeWhile_append_of_all {α : Type} (p : α → Bool) {l1 l2 : List α}
    (h : ∀ x ∈ l1, p x = true) :
    (l1 ++ l2).takeWhile p = l1 ++ l2.takeWhile p := by
  induction l1 with
  | nil => simp
  | cons a rest ih =>
    have ha := h a (List.mem_cons_self a rest)
    simp only [List.cons_append, List.takeWhile_cons, ha, if_true]
    rw [ih (fun x hx => h x (List.mem_cons_of_mem a hx))]

theorem takeWhile_replicate_nul (n : Nat) :
    (List.replicate n (Char.ofNat 0)).takeWhile
      (fun c => decide (c ≠ Char.ofNat 0)) = [] := by
  cases n with
  | zero => rfl
  | succ m => simp [List.replicate, List.takeWhile_cons]

theorem readBuffer_eq {payload : List Char} (hnul : Char.ofNat 0 ∉ payload) :
    readBuffer payload = payload := by
  rw [readBuffer, cStringOf, takeWhile_append_of_all]
  · rw [takeWhile_replicate_nul, List.append_nil]
  · intro x hx
    simp only [decide_eq_true_eq]
    exact fun e => hnul (e ▸ hx)

theorem mem_broadcastMessage {st : List Handle} {sender x : Handle}
    {msg m : List Char} :
    (x, m) ∈ broadcastMessage st sender msg
      ↔ (x ∈ st ∧ x ≠ 0 ∧ x ≠ sender) ∧ m = msg := by
  rw [broadcastMessage, List.mem_map]
  constructor
  · intro ⟨a, ha, he⟩
    have hx : a = x := congrArg Prod.fst he
    have hm : msg = m := congrArg Prod.snd he
    subst hx; subst hm
    exact ⟨mem_snapshot.mp ha, rfl⟩
  · intro ⟨hx, hm⟩
    exact ⟨x, mem_snapshot.mpr hx, by rw [hm]⟩

/-- C2: if peers A and B are registered (B a nonzero member, B ≠ A) and the
server reads payload P from A (a NUL-free chunk shorter than the 1024-byte
buffer), the broadcast delivers to B exactly `"[Client <A.id>]: " ++ P` —
every delivery to B carries that string and at least one such delivery
happens — and delivers nothing to A. -/
theorem c2_broadcast_format (idA : Nat) (st : List Handle) (A B : Handle)
    (P : List Char) (hB : B ∈ st) (hB0 : B ≠ 0) (hBA : B ≠ A)
    (hnul : Char.ofNat 0 ∉ P) (_hlen : P.length < bufferSize) :
    (B, tagMessage idA P) ∈ serverRelay idA st A P ∧
      (∀ m, (B, m) ∈ serverRelay idA st A P → m = tagMessage idA P) ∧
      (∀ m, (A, m) ∉ serverRelay idA st A P) := by
  rw [serverRelay, readBuffer_eq hnul]
  refine ⟨mem_broadcastMessage.mpr ⟨⟨hB, hB0, hBA⟩, rfl⟩, ?_, ?_⟩
  · intro m hm
    exact (mem_broadcastMessage.mp hm).2
  · intro m hm
    exact (mem_broadcastMessage.mp hm).1.2.2 rfl

theorem c2_broadcast_format_witness :
    (3 : Int) ∈ addClient (addClient initState 2) 3 ∧
      ((3 : Int), tagMessage 7 "hi".data)
        ∈ serverRelay 7 (addClient (addClient initState 2) 3) 2 "hi".data :=
  ⟨by decide,
    (c2_broadcast_format 7 (addClient (addClient initState 2) 3) 2 3 "hi".data
      (by decide) (by decide) (by decide) (by decide) (by decide)).1⟩

/-- C3 as stated is false: in `broadcast_message` the `send` calls sit between
`pthread_mutex_lock` and `pthread_mutex_unlock`, so with one registered peer
the send event at position 1 of the trace occurs at lock depth 1, not 0. -/
theorem c3_counterexample :
    ¬ (∀ (i : Nat) (h : Handle) (m : List Char),
        (broadcastTrace (addClient initState 5) 7 ['a']).get? i
            = some (BEvent.sendTo h m) →
          lockDepthAt (broadcastTrace (addClient initState 5) 7 ['a']) i = 0) :=
  fun hall => absurd (hall 1 5 ['a'] (by decide)) (by decide)

/-- C3, amended: `broadcast_message` holds the registry lock across every
write: each send event in its trace occurs at lock depth 1; the lock is
released only after the last write, so a blocking write does stall all
registry operations. -/
theorem c3_sends_hold_lock (st : List Handle) (sender : Handle)
    (msg : List Char) (i : Nat) (h : Handle) (m : List Char)
    (hev : (broadcastTrace st sender msg).get? i
      = some (BEvent.sendTo h m)) :
    lockDepthAt (broadcastTrace st sender msg) i = 1 := by
  have htr : broadcastTrace st sender msg
      = BEvent.lockAcquire ::
        ((snapshot st sender).map (fun h => BEvent.sendTo h msg)
          ++ [BEvent.lockRelease]) := by
    rw [broadcastTrace, List.cons_append]
  set l := (snapshot st sender).map (fun h => BEvent.sendTo h msg) with hl
  cases i with
  | zero =>
    rw [htr] at hev
    simp at hev
  | succ j =>
    rw [htr, List.get?_cons_succ] at hev
    have hj : j < l.length := by
      by_contra hge
      push_neg at hge
      rw [List.get?_append_right hge] at hev
      rcases Nat.lt_or_ge (j - l.length) 1 with hlt | hge2
      · interval_cases h2 : j - l.length
        · simp at hev
      · rw [List.get?_eq_none.mpr (by simpa using hge2)] at hev
        exact Option.noConfusion hev
    have hnotin : ∀ e ∈ List.take j l,
        e ≠ BEvent.lockAcquire ∧ e ≠ BEvent.lockRelease := by
      intro e he
      have hel : e ∈ l := List.mem_of_mem_take he
      rw [hl, List.mem_map] at hel
      obtain ⟨y, _, hy⟩ := hel
      constructor <;> (rw [← hy]; intro hc; exact BEvent.noConfusion hc)
    have hacq : (List.take j l).count BEvent.lockAcquire = 0 :=
      List.count_eq_zero.mpr (fun hmem => (hnotin _ hmem).1 rfl)
    have hrel : (List.take j l).count BEvent.lockRelease = 0 :=
      List.count_eq_zero.mpr (fun hmem => (hnotin _ hmem).2 rfl)
    rw [lockDepthAt, htr]
    rw [List.take_succ_cons, List.take_append_of_le_length (Nat.le_of_lt hj)]
    rw [List.count_cons_self, List.count_cons_of_ne (by intro hc; exact BEvent.noConfusion hc)]
    rw [hacq, hrel]
    rfl

theorem c3_sends_hold_lock_witness :
    (broadcastTrace (addClient initState 5) 7 ['a']).get? 1
        = some (BEvent.sendTo 5 ['a']) ∧
      lockDepthAt (broadcastTrace (addClient initState 5) 7 ['a']) 1 = 1 :=
  ⟨by decide,
    c3_sends_hold_lock (addClient initState 5) 7 ['a'] 1 5 ['a'] (by decide)⟩

/-- C7 as stated is false: with all ten slots occupied, `add_client(11)`
leaves the registry unchanged and reports nothing, the session is served
anyway, and handle 11 appears in no broadcast snapshot. -/
theorem c7_counterexample :
    addClient
        (runOps [Op.add 1, Op.add 2, Op.add 3, Op.add 4, Op.add 5, Op.add 6,
          Op.add 7, Op.add 8, Op.add 9, Op.add 10]) 11
      = runOps [Op.add 1, Op.add 2, Op.add 3, Op.add 4, Op.add 5, Op.add 6,
          Op.add 7, Op.add 8, Op.add 9, Op.add 10] ∧
      (11 : Int) ∉ snapshot
        (addClient
          (runOps [Op.add 1, Op.add 2, Op.add 3, Op.add 4, Op.add 5, Op.add 6,
            Op.add 7, Op.add 8, Op.add 9, Op.add 10]) 11) 1 := by
  decide

/-- C7, amended: a connection registered while the registry is full is
silently dropped: `add_client` leaves the state unchanged, signals no error,
and — as long as the registry state is unchanged — the new handle receives no
broadcast from any sender. -/
theorem c7_full_never_broadcast (st : List Handle) (h sender : Handle)
    (msg : List Char) (hfull : ∀ x ∈ st, x ≠ 0) (hnm : h ∉ st) :
    addClient st h = st ∧
      ∀ m, (h, m) ∉ broadcastMessage (addClient st h) sender msg := by
  have he : addClient st h = st := addClient_of_full h hfull
  refine ⟨he, fun m hmem => ?_⟩
  rw [he] at hmem
  exact hnm (mem_broadcastMessage.mp hmem).1.1

theorem c7_full_never_broadcast_witness :
    (∀ x ∈ ([1, 2, 3, 4, 5, 6, 7, 8, 9, 10] : List Handle), x ≠ 0) ∧
      ∀ m, ((11 : Int), m)
        ∉ broadcastMessage (addClient [1, 2, 3, 4, 5, 6, 7, 8, 9, 10] 11) 1 ['a'] :=
  ⟨by decide,
    (c7_full_never_broadcast [1, 2, 3, 4, 5, 6, 7, 8, 9, 10] 11 1 ['a']
      (by decide) (by decide)).2⟩

/-- C8: the session identity is `rand()` right after `srand(time(NULL))`, a
deterministic function of the wall-clock tick, so two sessions seeded in the
same tick are assigned the same identity (and can therefore collide). -/
theorem c8_identity_same_tick (s1 s2 : SessionStart)
    (ht : s1.startTick = s2.startTick) :
    sessionIdentity s1 = sessionIdentity s2 := by
  rw [sessionIdentity, sessionIdentity, ht]

theorem c8_identity_same_tick_witness :
    (SessionStart.mk 1000 3 ≠ SessionStart.mk 1000 4) ∧
      sessionIdentity (SessionStart.mk 1000 3)
        = sessionIdentity (SessionStart.mk 1000 4) :=
  ⟨by decide, c8_identity_same_tick (SessionStart.mk 1000 3)
    (SessionStart.mk 1000 4) rfl⟩

/-- C9: for an input line consisting of `body` (no interior newline) plus the
trailing newline, the client strips the newline; on the literal "exit" it
closes the socket and stops the loop (nothing further is sent), otherwise it
sends exactly the stripped line and the loop continues. -/
theorem c9_send_loop_step (body : List Char) (rest : List (List Char))
    (hnl : '\n' ∉ body) :
    clientStep (body ++ ['\n'])
        = (if body = "exit".data then ClientStep.closeAndStop
           else ClientStep.sendLine body) ∧
      sendLoop ((body ++ ['\n']) :: rest)
        = (if body = "exit".data then ([], true)
           else (body :: (sendLoop rest).1, (sendLoop rest).2)) := by
  have hstrip : stripNewline (body ++ ['\n']) = body := by
    rw [stripNewline, takeWhile_append_of_all]
    · simp [List.takeWhile_cons]
    · intro x hx
      simp only [decide_eq_true_eq]
      exact fun e => hnl (e ▸ hx)
  have hstep : clientStep (body ++ ['\n'])
      = (if body = "exit".data then ClientStep.closeAndStop
         else ClientStep.sendLine body) := by
    rw [clientStep, hstrip]
  refine ⟨hstep, ?_⟩
  rw [sendLoop, hstep]
  by_cases he : body = "exit".data <;> simp [he]

theorem c9_send_loop_step_witness :
    ('\n' ∉ "hello".data) ∧
      clientStep ("hello".data ++ ['\n'])
        = (if "hello".data = "exit".data then ClientStep.closeAndStop
           else ClientStep.sendLine "hello".data) :=
  ⟨by decide, (c9_send_loop_step "hello".data [] (by decide)).1⟩

end Zignal
